import Mathlib

/-!
Verification of the tic-tac-toe engine in this repository.

The repository has two front ends sharing the same core design:
* tiktaktoe.py (Tk GUI) - embedded below in namespace Gui:
  WIN_LINES, winner_of, is_draw, available_moves, minimax,
  find_winning_move, pick_cpu_move, and the click handler of TicTacToeApp.
* consoletictactoe.py (console) - embedded below in namespace Console:
  winning_lines, check_winner, is_draw, cpu move helpers and minimax.

Boards are 9-cell lists; a cell is empty (none) or holds a mark.
The in-place mutation of Python (board[m] = mark ... board[m] = " ") is embedded
by threading the board value through every function that mutates it, so the
"board is restored" facts of the source are provable statements here.
The call random.choice(l) is modelled by an injected index r, the chosen
element being l[r % len(l)]; random.random() is an injected rational.
-/

inductive P where
  | X
  | O
deriving DecidableEq

abbrev Cell := Option P

abbrev Board := List Cell

/-- Any value of the two-element mark type equals one of two distinct marks. -/
theorem P.eq_or_eq (p c h : P) (hne : c ≠ h) : p = c ∨ p = h := by
  cases p <;> cases c <;> cases h <;> simp_all

/- Small list facts used throughout (proved here to keep the file
self-contained). -/

theorem get_set_self (b : Board) (m : Nat) (v : Cell) (h : m < b.length) :
    (b.set m v)[m]? = some v := by
  induction b generalizing m with
  | nil => simp at h
  | cons c t ih =>
    cases m with
    | zero => simp
    | succ k => simpa using ih k (by simpa using h)

theorem get_set_ne (b : Board) (m k : Nat) (v : Cell) (h : m ≠ k) :
    (b.set m v)[k]? = b[k]? := by
  induction b generalizing m k with
  | nil => rfl
  | cons c t ih =>
    cases m with
    | zero =>
      cases k with
      | zero => exact absurd rfl h
      | succ j => simp
    | succ i =>
      cases k with
      | zero => simp
      | succ j => simpa using ih i j (by omega)

theorem set_restore (b : Board) (m : Nat) (c : Cell) (h : b[m]? = some c) :
    b.set m c = b := by
  induction b generalizing m with
  | nil => rfl
  | cons d t ih =>
    cases m with
    | zero => simp_all
    | succ k =>
      simp only [List.getElem?_cons_succ] at h
      simp [ih k h]

theorem get_lt_length (b : Board) (i : Nat) (c : Cell) (h : b[i]? = some c) :
    i < b.length := by
  induction b generalizing i with
  | nil => simp at h
  | cons d t ih =>
    cases i with
    | zero => simp
    | succ k =>
      simp only [List.getElem?_cons_succ] at h
      simpa using ih k h

theorem mem_of_get (b : Board) (i : Nat) (c : Cell) (h : b[i]? = some c) :
    c ∈ b := by
  induction b generalizing i with
  | nil => simp at h
  | cons d t ih =>
    cases i with
    | zero => simp at h; simp [h]
    | succ k =>
      simp only [List.getElem?_cons_succ] at h
      exact List.mem_cons_of_mem _ (ih k h)

theorem get_of_mem (b : Board) (c : Cell) (h : c ∈ b) :
    ∃ i : Nat, b[i]? = some c := by
  induction b with
  | nil => simp at h
  | cons d t ih =>
    rcases List.mem_cons.mp h with h1 | h1
    · exact ⟨0, by simp [h1]⟩
    · obtain ⟨i, hi⟩ := ih h1
      exact ⟨i + 1, by simpa using hi⟩

/-- Indices of the empty cells, in ascending order
(`available_moves` in tiktaktoe.py, the available-moves helper in
consoletictactoe.py: `[i for i, v in enumerate(board) if v == " "]`). -/
def availFrom (b : Board) : List Nat :=
  (List.range b.length).filter (fun i => decide (b[i]? = some none))

theorem mem_avail (b : Board) (i : Nat) :
    i ∈ availFrom b ↔ b[i]? = some none := by
  unfold availFrom
  constructor
  · intro h
    have := List.mem_filter.mp h
    simpa using this.2
  · intro h
    refine List.mem_filter.mpr ⟨?_, by simpa using h⟩
    exact List.mem_range.mpr (get_lt_length b i none h)

theorem avail_sorted (b : Board) : (availFrom b).Pairwise (· < ·) :=
  List.Pairwise.sublist (List.filter_sublist _) (List.pairwise_lt_range _)

theorem avail_nodup (b : Board) : (availFrom b).Nodup :=
  (avail_sorted b).imp Nat.ne_of_lt

theorem avail_length_le (b : Board) : (availFrom b).length ≤ b.length := by
  calc (availFrom b).length ≤ (List.range b.length).length :=
        List.length_filter_le _ _
    _ = b.length := List.length_range _

/-- A board with no empty cell has every cell occupied. -/
theorem avail_nil_all_some (b : Board) (h : availFrom b = []) :
    b.all (fun c => c.isSome) = true := by
  rw [List.all_eq_true]
  intro c hc
  obtain ⟨i, hi⟩ := get_of_mem b c hc
  cases c with
  | some p => rfl
  | none =>
    exfalso
    have : i ∈ availFrom b := (mem_avail b i).mpr hi
    simp [h] at this

theorem all_some_avail_nil (b : Board) (h : b.all (fun c => c.isSome) = true) :
    availFrom b = [] := by
  rw [List.all_eq_true] at h
  cases he : availFrom b with
  | nil => rfl
  | cons i t =>
    exfalso
    have hi : b[i]? = some none := (mem_avail b i).mp (he ▸ List.mem_cons_self i t)
    have := h none (mem_of_get b i none hi)
    simp at this

/-- Setting an occupied value at an empty index removes exactly that index
from the available list. -/
theorem avail_set (b : Board) (m : Nat) (p : P) (hm : m ∈ availFrom b) :
    availFrom (b.set m (some p))
      = (availFrom b).filter (fun i => decide ¬(i = m)) := by
  have hmlt : m < b.length := get_lt_length b m none ((mem_avail b m).mp hm)
  unfold availFrom
  rw [List.length_set, List.filter_filter]
  refine List.filter_congr ?_
  intro i _
  by_cases him : i = m
  · subst him
    simp [get_set_self b i (some p) hmlt]
  · simp [get_set_ne b m i (some p) (fun h => him h.symm), him]

theorem length_filter_ne (l : List Nat) (m : Nat) (hd : l.Nodup) (hm : m ∈ l) :
    (l.filter (fun i => decide ¬(i = m))).length + 1 = l.length := by
  induction l with
  | nil => simp at hm
  | cons a t ih =>
    rw [List.nodup_cons] at hd
    by_cases ham : a = m
    · subst ham
      have h2 : t.filter (fun i => decide ¬(i = a)) = t :=
        List.filter_eq_self.mpr (by
          intro x hx
          simp only [decide_eq_true_eq]
          intro hxa
          exact hd.1 (hxa ▸ hx))
      have h1 : (a :: t).filter (fun i => decide ¬(i = a))
          = t.filter (fun i => decide ¬(i = a)) := by
        rw [List.filter_cons]
        simp
      rw [h1, h2, List.length_cons]
    · have hmt : m ∈ t := by
        rcases List.mem_cons.mp hm with h | h
        · exact absurd h.symm ham
        · exact h
      have hstep := ih hd.2 hmt
      simp only [List.filter_cons, decide_not, ham, decide_eq_true_eq,
        if_pos, Bool.not_false, List.length_cons]
      simp only [decide_not] at hstep
      simp [ham]
      omega

theorem avail_set_length (b : Board) (m : Nat) (p : P) (hm : m ∈ availFrom b) :
    (availFrom (b.set m (some p))).length + 1 = (availFrom b).length := by
  rw [avail_set b m p hm]
  exact length_filter_ne _ m (avail_nodup b) hm

theorem mem_avail_set (b : Board) (m i : Nat) (p : P) (hm : m ∈ availFrom b) :
    i ∈ availFrom (b.set m (some p)) ↔ i ∈ availFrom b ∧ i ≠ m := by
  rw [avail_set b m p hm, List.mem_filter]
  simp

/-- First-match scan over a list of index triples: the shared shape of
`winner_of` (tiktaktoe.py) and `check_winner` (consoletictactoe.py):
for (a, b, c) in lines, if board[a] != " " and board[a] == board[b] == board[c],
return board[a]. -/
def winnerFrom (b : Board) : List (Nat × Nat × Nat) → Option P
  | [] => none
  | (i, j, k) :: ls =>
    match b[i]? with
    | some (some p) =>
      if b[j]? = some (some p) ∧ b[k]? = some (some p) then some p
      else winnerFrom b ls
    | _ => winnerFrom b ls

namespace Gui

/-- WIN_LINES in tiktaktoe.py, verbatim: note the third entry of the
"cols" row is (2, 4, 6), and (2, 4, 6) appears again among the diagonals. -/
def WIN_LINES : List (Nat × Nat × Nat) :=
  [(0, 1, 2), (3, 4, 5), (6, 7, 8),
   (0, 3, 6), (1, 4, 7), (2, 4, 6),
   (0, 4, 8), (2, 4, 6)]

def winner_of (b : Board) : Option P := winnerFrom b WIN_LINES

def is_draw (b : Board) : Bool :=
  (winner_of b).isNone && b.all (fun c => c.isSome)

def available_moves (b : Board) : List Nat := availFrom b

end Gui

namespace Console

/-- winning_lines() in consoletictactoe.py: the correct 8 lines. -/
def winning_lines : List (Nat × Nat × Nat) :=
  [(0, 1, 2), (3, 4, 5), (6, 7, 8),
   (0, 3, 6), (1, 4, 7), (2, 5, 8),
   (0, 4, 8), (2, 4, 6)]

def check_winner (b : Board) : Option P := winnerFrom b winning_lines

/-- is_draw in consoletictactoe.py checks fullness only; its callers always
test check_winner first. -/
def is_draw (b : Board) : Bool := b.all (fun c => c.isSome)

end Console

/-- Game outcome, derived on demand (spec section 3). -/
inductive Outcome where
  | ongoing
  | win (p : P)
  | draw
deriving DecidableEq

/-- Outcome evaluation of the GUI module, in the order its callers use it
(_check_end_and_handle: winner_of first, then is_draw). -/
def Gui.evaluate (b : Board) : Outcome :=
  match Gui.winner_of b with
  | some p => Outcome.win p
  | none => if Gui.is_draw b then Outcome.draw else Outcome.ongoing

/-- Outcome evaluation of the console module, in the order its callers use it
(play_single_game and the minimax terminal test: check_winner first, then
is_draw). -/
def Console.evaluate (b : Board) : Outcome :=
  match Console.check_winner b with
  | some p => Outcome.win p
  | none => if Console.is_draw b then Outcome.draw else Outcome.ongoing

/-- A board whose right column (cells 2, 5, 8) is filled by X and is
otherwise empty. -/
def rightColumnBoard : Board :=
  [none, none, some P.X, none, none, some P.X, none, none, some P.X]

/-- C1: the claim requires a three-in-a-row on the right column (cells
2, 5, 8) to be detected as a win by both evaluators.  The console
check_winner does detect it, but the GUI winner_of does not: WIN_LINES
lists (2, 4, 6) where the right column (2, 5, 8) should be, so the filled
right column yields no winner there.  This theorem evaluates both
evaluators at the failing input. -/
theorem c1_right_column_win_missed_by_gui :
    rightColumnBoard[2]? = some (some P.X)
    ∧ rightColumnBoard[5]? = some (some P.X)
    ∧ rightColumnBoard[8]? = some (some P.X)
    ∧ Console.check_winner rightColumnBoard = some P.X
    ∧ Gui.winner_of rightColumnBoard = none := by
  decide

/-- C8: the outcome evaluation of each module maps every board to exactly one of
Ongoing / Win p / Draw: the result is Win p exactly when the winner scan of the module
scan reports p (checked before Draw), Draw exactly when no winner is
reported and the board is full, and Ongoing exactly when no winner is
reported and the board is not full.  Win and Draw are therefore never both
reported for the same board. -/
theorem c8_outcome_evaluation_exclusive (b : Board) :
    (∀ p, Gui.evaluate b = Outcome.win p ↔ Gui.winner_of b = some p)
    ∧ (Gui.evaluate b = Outcome.draw
        ↔ Gui.winner_of b = none ∧ b.all (fun c => c.isSome) = true)
    ∧ (Gui.evaluate b = Outcome.ongoing
        ↔ Gui.winner_of b = none ∧ b.all (fun c => c.isSome) = false)
    ∧ (∀ p, Console.evaluate b = Outcome.win p ↔ Console.check_winner b = some p)
    ∧ (Console.evaluate b = Outcome.draw
        ↔ Console.check_winner b = none ∧ b.all (fun c => c.isSome) = true)
    ∧ (Console.evaluate b = Outcome.ongoing
        ↔ Console.check_winner b = none ∧ b.all (fun c => c.isSome) = false) := by
  unfold Gui.evaluate Console.evaluate Gui.is_draw Console.is_draw
  rcases hg : Gui.winner_of b with _ | p <;>
    rcases hc : Console.check_winner b with _ | q <;>
      rcases hall : b.all (fun c => c.isSome) <;>
        simp [hg, hc, hall]

/-! ## The opponent engine

Both minimax functions (tiktaktoe.py `minimax`, consoletictactoe.py
`_minimax`) have the same text up to the winner function, the draw test and
the initial best scores (-10/10 vs -999/999), so they are embedded as one
core parametrised by an `EngineCfg`; each module instantiates it below with
its own functions and constants, and the proof fields record the properties
of those instantiations the proofs use. -/

structure EngineCfg where
  winFn : Board → Option P
  drawFn : Board → Bool
  lo : Int
  hi : Int
  lo_lt : lo < -1
  hi_gt : 1 < hi
  full_draw : ∀ b : Board, winFn b = none → availFrom b = [] → drawFn b = true

/-- One pass of the best-move loop of minimax
(`for m in moves: place; recurse; unplace; if better: update`), with the
mutated board threaded through.  `better s best` is `score > best_score`
at a maximising node and `score < best_score` at a minimising node. -/
def bestLoop (better : Int → Int → Bool) (mark : P)
    (rec : Board → (Int × Option Nat) × Board) :
    List Nat → Int × Option Nat → Board → (Int × Option Nat) × Board
  | [], best, b => (best, b)
  | m :: ms, best, b =>
    let r := rec (b.set m (some mark))
    bestLoop better mark rec ms
      (if better r.1.1 best.1 then (r.1.1, some m) else best)
      (r.2.set m none)

/-- The minimax search (tiktaktoe.py `minimax`, consoletictactoe.py
`_minimax`): returns ((score, best move), final board).  Terminal tests
first (winner == cpu, winner == human, draw), then the maximising or
minimising loop over available_moves.  The source recursion terminates
because every recursive call is on a board with one more mark; here the
structural fuel plays that role, and the fuel-independence theorem below
shows any fuel at least the number of empty cells gives the same result. -/
def minimaxT (cfg : EngineCfg) (cpu hum : P) : Nat → Board → P → (Int × Option Nat) × Board
  | 0, b, _ =>
    if cfg.winFn b = some cpu then ((1, none), b)
    else if cfg.winFn b = some hum then ((-1, none), b)
    else if cfg.drawFn b then ((0, none), b)
    else ((0, none), b)
  | f + 1, b, current =>
    if cfg.winFn b = some cpu then ((1, none), b)
    else if cfg.winFn b = some hum then ((-1, none), b)
    else if cfg.drawFn b then ((0, none), b)
    else if current = cpu then
      bestLoop (fun s best => decide (best < s)) cpu
        (fun b1 => minimaxT cfg cpu hum f b1 hum)
        (availFrom b) (cfg.lo, none) b
    else
      bestLoop (fun s best => decide (s < best)) hum
        (fun b1 => minimaxT cfg cpu hum f b1 cpu)
        (availFrom b) (cfg.hi, none) b

/-- Score-and-move part of the minimax result. -/
def minimaxV (cfg : EngineCfg) (cpu hum : P) (fuel : Nat) (b : Board) (current : P) :
    Int × Option Nat :=
  (minimaxT cfg cpu hum fuel b current).1

theorem gui_full_draw (b : Board) (hw : Gui.winner_of b = none)
    (ha : availFrom b = []) : Gui.is_draw b = true := by
  unfold Gui.is_draw
  rw [hw, avail_nil_all_some b ha]
  rfl

/-- Engine configuration of tiktaktoe.py (winner_of / is_draw, -10 / 10). -/
def guiCfg : EngineCfg where
  winFn := Gui.winner_of
  drawFn := Gui.is_draw
  lo := -10
  hi := 10
  lo_lt := by decide
  hi_gt := by decide
  full_draw := gui_full_draw

/-- Engine configuration of consoletictactoe.py (check_winner / is_draw,
-999 / 999). -/
def consoleCfg : EngineCfg where
  winFn := Console.check_winner
  drawFn := Console.is_draw
  lo := -999
  hi := 999
  lo_lt := by decide
  hi_gt := by decide
  full_draw := fun b _ ha => avail_nil_all_some b ha

/-- The find-winning-move loop (`for m in available: place; test winner;
unplace`), board threaded. -/
def fwmLoop (winFn : Board → Option P) (p : P) :
    List Nat → Board → Option Nat × Board
  | [], b => (none, b)
  | m :: ms, b =>
    let b1 := b.set m (some p)
    if winFn b1 = some p then (some m, b1.set m none)
    else fwmLoop winFn p ms (b1.set m none)

/-- `find_winning_move` in tiktaktoe.py and the equivalent helper in
consoletictactoe.py, parametrised by the winner function of the module. -/
def find_winning_moveT (winFn : Board → Option P) (b : Board) (p : P) :
    Option Nat × Board :=
  fwmLoop winFn p (availFrom b) b

/-- Failures of the cpu-move functions: random.choice on an empty sequence
raises IndexError (tiktaktoe.py paths), and the console easy mover raises
RuntimeError("No available moves for CPU."). -/
inductive CpuErr where
  | emptyChoice
  | noMoves
deriving DecidableEq

/-- random.choice(l) driven by an injected index r: every element of l is
the result for some r, and the empty list raises. -/
def choice (l : List Nat) (r : Nat) : Except CpuErr Nat :=
  if l.isEmpty then Except.error CpuErr.emptyChoice
  else Except.ok (l.getD (r % l.length) 0)

/-- Difficulty tiers.  tiktaktoe.py dispatches on the strings
"Easy" / "Medium" / anything else (the menu sends "Difficult");
consoletictactoe.py on "easy" / "medium" / anything else ("hard"). -/
inductive Diff where
  | easy
  | medium
  | hard
deriving DecidableEq

/-- l * n in Python (list repetition). -/
def rep (l : List Nat) (n : Nat) : List Nat := (List.replicate n l).flatten

/-- The weighted fallback pool built in pick_cpu_move (tiktaktoe.py):
weighted = center * 5 + corners * 3 + edges * 1, all from legal moves. -/
def Gui.weighted_pool (b : Board) : List Nat :=
  rep (if 4 ∈ Gui.available_moves b then [4] else []) 5
    ++ rep ([0, 2, 6, 8].filter (fun i => decide (i ∈ Gui.available_moves b))) 3
    ++ rep ([1, 3, 5, 7].filter (fun i => decide (i ∈ Gui.available_moves b))) 1

/-- pick_cpu_move in tiktaktoe.py, board threaded; rf models the
random.random() draw and rc the random.choice draw. -/
def Gui.pick_cpu_move (b : Board) (difficulty : Diff) (cpu hum : P)
    (rf : ℚ) (rc : Nat) : Except CpuErr Nat × Board :=
  let moves := Gui.available_moves b
  match difficulty with
  | Diff.easy => (choice moves rc, b)
  | Diff.medium =>
    match find_winning_moveT Gui.winner_of b cpu with
    | (some m, b2) => (Except.ok m, b2)
    | (none, b2) =>
      match find_winning_moveT Gui.winner_of b2 hum with
      | (some m, b3) => (Except.ok m, b3)
      | (none, b3) =>
        if rf < 1 / 4 then (choice moves rc, b3)
        else
          (choice (if (Gui.weighted_pool b).isEmpty then moves
                   else Gui.weighted_pool b) rc, b3)
  | Diff.hard =>
    match minimaxT guiCfg cpu hum 9 b cpu with
    | ((_, some m), b2) => (Except.ok m, b2)
    | ((_, none), b2) => (choice moves rc, b2)

/-- The easy cpu mover of consoletictactoe.py: explicit RuntimeError when no
moves are available, else random.choice. -/
def Console.cpu_move_easy (b : Board) (rc : Nat) : Except CpuErr Nat :=
  let available := availFrom b
  if available.isEmpty then Except.error CpuErr.noMoves
  else Except.ok (available.getD (rc % available.length) 0)

/-- cpu_move in consoletictactoe.py (dispatching to the easy / medium / hard
movers), board threaded. -/
def Console.cpu_move (b : Board) (difficulty : Diff) (cpu hum : P)
    (rc : Nat) : Except CpuErr Nat × Board :=
  match difficulty with
  | Diff.easy => (Console.cpu_move_easy b rc, b)
  | Diff.medium =>
    match find_winning_moveT Console.check_winner b cpu with
    | (some m, b2) => (Except.ok m, b2)
    | (none, b2) =>
      match find_winning_moveT Console.check_winner b2 hum with
      | (some m, b3) => (Except.ok m, b3)
      | (none, b3) => (Console.cpu_move_easy b3 rc, b3)
  | Diff.hard =>
    match minimaxT consoleCfg cpu hum 9 b cpu with
    | ((_, some m), b2) => (Except.ok m, b2)
    | ((_, none), b2) => (Console.cpu_move_easy b2 rc, b2)

/-! ## Board restoration (frame property of the search) -/

theorem fwmLoop_board (winFn : Board → Option P) (p : P) :
    ∀ (ms : List Nat) (b : Board),
      (∀ m ∈ ms, b[m]? = some none) →
      (fwmLoop winFn p ms b).2 = b := by
  intro ms
  induction ms with
  | nil => intro b _; rfl
  | cons m t ih =>
    intro b hms
    have hm : b[m]? = some none := hms m (List.mem_cons_self m t)
    have hrestore : (b.set m (some p)).set m none = b := by
      rw [List.set_set]
      exact set_restore b m none hm
    by_cases hw : winFn (b.set m (some p)) = some p
    · simp [fwmLoop, hw, hrestore]
    · simp only [fwmLoop, hw, if_neg, ite_false, hrestore]
      exact ih b (fun x hx => hms x (List.mem_cons_of_mem m hx))

theorem find_winning_moveT_board (winFn : Board → Option P) (b : Board) (p : P) :
    (find_winning_moveT winFn b p).2 = b :=
  fwmLoop_board winFn p (availFrom b) b (fun m hm => (mem_avail b m).mp hm)

/-- Pure value of the best-move loop: the fold the loop computes on scores,
with the board factored out. -/
def bestVal (better : Int → Int → Bool) (f : Nat → Int) :
    List Nat → Int × Option Nat → Int × Option Nat
  | [], best => best
  | m :: ms, best =>
    bestVal better f ms (if better (f m) best.1 then (f m, some m) else best)

theorem bestLoop_eq (better : Int → Int → Bool) (mark : P)
    (rec : Board → (Int × Option Nat) × Board)
    (hrec : ∀ b1, (rec b1).2 = b1) :
    ∀ (ms : List Nat) (best : Int × Option Nat) (b : Board),
      (∀ m ∈ ms, b[m]? = some none) →
      bestLoop better mark rec ms best b
        = (bestVal better (fun m => (rec (b.set m (some mark))).1.1) ms best, b) := by
  intro ms
  induction ms with
  | nil => intro best b _; rfl
  | cons m t ih =>
    intro best b hms
    have hm : b[m]? = some none := hms m (List.mem_cons_self m t)
    have hrestore : ((rec (b.set m (some mark))).2).set m none = b := by
      rw [hrec, List.set_set]
      exact set_restore b m none hm
    simp only [bestLoop, bestVal, hrestore]
    exact ih _ b (fun x hx => hms x (List.mem_cons_of_mem m hx))

theorem minimaxT_board (cfg : EngineCfg) (cpu hum : P) :
    ∀ (fuel : Nat) (b : Board) (current : P),
      (minimaxT cfg cpu hum fuel b current).2 = b := by
  intro fuel
  induction fuel with
  | zero =>
    intro b current
    unfold minimaxT
    split_ifs <;> rfl
  | succ f ih =>
    intro b current
    unfold minimaxT
    split_ifs with h1 h2 h3 h4
    · rfl
    · rfl
    · rfl
    · exact congrArg Prod.snd
        (bestLoop_eq _ cpu _ (fun b1 => ih b1 hum) (availFrom b) (cfg.lo, none) b
          (fun m hm => (mem_avail b m).mp hm))
    · exact congrArg Prod.snd
        (bestLoop_eq _ hum _ (fun b1 => ih b1 cpu) (availFrom b) (cfg.hi, none) b
          (fun m hm => (mem_avail b m).mp hm))

theorem gui_pick_board (b : Board) (d : Diff) (cpu hum : P) (rf : ℚ) (rc : Nat) :
    (Gui.pick_cpu_move b d cpu hum rf rc).2 = b := by
  cases d with
  | easy => rfl
  | medium =>
    have h1 := find_winning_moveT_board Gui.winner_of b cpu
    rcases e1 : find_winning_moveT Gui.winner_of b cpu with ⟨mo1, b2⟩
    rw [e1] at h1
    rw [show b2 = b from h1] at e1
    unfold Gui.pick_cpu_move
    cases mo1 with
    | some m => simp [e1]
    | none =>
      have h2 := find_winning_moveT_board Gui.winner_of b hum
      rcases e2 : find_winning_moveT Gui.winner_of b hum with ⟨mo2, b3⟩
      rw [e2] at h2
      rw [show b3 = b from h2] at e2
      cases mo2 with
      | some m => simp [e1, e2]
      | none =>
        simp only [e1, e2]
        split_ifs <;> rfl
  | hard =>
    have h1 := minimaxT_board guiCfg cpu hum 9 b cpu
    rcases e1 : minimaxT guiCfg cpu hum 9 b cpu with ⟨⟨s, mo⟩, b2⟩
    rw [e1] at h1
    rw [show b2 = b from h1] at e1
    unfold Gui.pick_cpu_move
    cases mo <;> simp [e1]

theorem console_move_board (b : Board) (d : Diff) (cpu hum : P) (rc : Nat) :
    (Console.cpu_move b d cpu hum rc).2 = b := by
  cases d with
  | easy => rfl
  | medium =>
    have h1 := find_winning_moveT_board Console.check_winner b cpu
    rcases e1 : find_winning_moveT Console.check_winner b cpu with ⟨mo1, b2⟩
    rw [e1] at h1
    rw [show b2 = b from h1] at e1
    unfold Console.cpu_move
    cases mo1 with
    | some m => simp [e1]
    | none =>
      have h2 := find_winning_moveT_board Console.check_winner b hum
      rcases e2 : find_winning_moveT Console.check_winner b hum with ⟨mo2, b3⟩
      rw [e2] at h2
      rw [show b3 = b from h2] at e2
      cases mo2 <;> simp [e1, e2]
  | hard =>
    have h1 := minimaxT_board consoleCfg cpu hum 9 b cpu
    rcases e1 : minimaxT consoleCfg cpu hum 9 b cpu with ⟨⟨s, mo⟩, b2⟩
    rw [e1] at h1
    rw [show b2 = b from h1] at e1
    unfold Console.cpu_move
    cases mo <;> simp [e1]

/-- C4: for every difficulty tier and every board, the move
selectors return the board exactly as it was given: every speculative
place in the win/block probes and in the minimax search is undone, and the
chosen move itself is not applied by the engine (it is only returned). -/
theorem c4_selector_leaves_board_unchanged (b : Board) (d : Diff) (cpu hum : P)
    (rf : ℚ) (rc : Nat) :
    (Gui.pick_cpu_move b d cpu hum rf rc).2 = b
    ∧ (Console.cpu_move b d cpu hum rc).2 = b
    ∧ (find_winning_moveT Gui.winner_of b cpu).2 = b
    ∧ (find_winning_moveT Console.check_winner b cpu).2 = b
    ∧ (minimaxT guiCfg cpu hum 9 b cpu).2 = b
    ∧ (minimaxT consoleCfg cpu hum 9 b cpu).2 = b :=
  ⟨gui_pick_board b d cpu hum rf rc, console_move_board b d cpu hum rc,
   find_winning_moveT_board _ b cpu, find_winning_moveT_board _ b cpu,
   minimaxT_board _ cpu hum 9 b cpu, minimaxT_board _ cpu hum 9 b cpu⟩

/-! ## Properties of the best-move fold -/

theorem bestVal_cases (better : Int → Int → Bool) (f : Nat → Int) :
    ∀ (ms : List Nat) (best : Int × Option Nat),
      bestVal better f ms best = best
      ∨ ∃ m ∈ ms, bestVal better f ms best = (f m, some m) := by
  intro ms
  induction ms with
  | nil => intro best; exact Or.inl rfl
  | cons m t ih =>
    intro best
    rcases ih (if better (f m) best.1 then (f m, some m) else best) with h | ⟨m2, hm2, h⟩
    · by_cases hb : better (f m) best.1 = true
      · right
        refine ⟨m, List.mem_cons_self m t, ?_⟩
        simpa [bestVal, hb] using h
      · left
        simp only [Bool.not_eq_true] at hb
        simpa [bestVal, hb] using h
    · right
      exact ⟨m2, List.mem_cons_of_mem m hm2, by simpa [bestVal] using h⟩

theorem bestVal_congr (better : Int → Int → Bool) (f g : Nat → Int) :
    ∀ (ms : List Nat) (best : Int × Option Nat),
      (∀ m ∈ ms, f m = g m) →
      bestVal better f ms best = bestVal better g ms best := by
  intro ms
  induction ms with
  | nil => intro best _; rfl
  | cons m t ih =>
    intro best hfg
    simp only [bestVal, hfg m (List.mem_cons_self m t)]
    exact ih _ (fun x hx => hfg x (List.mem_cons_of_mem m hx))

/-! ## Value-level equations of the minimax search -/

theorem minimaxV_win_cpu (cfg : EngineCfg) (cpu hum : P) (fuel : Nat) (b : Board)
    (current : P) (h : cfg.winFn b = some cpu) :
    minimaxV cfg cpu hum fuel b current = (1, none) := by
  unfold minimaxV
  cases fuel <;> simp [minimaxT, h]

theorem minimaxV_win_hum (cfg : EngineCfg) (cpu hum : P) (fuel : Nat) (b : Board)
    (current : P) (h1 : cfg.winFn b ≠ some cpu) (h2 : cfg.winFn b = some hum) :
    minimaxV cfg cpu hum fuel b current = (-1, none) := by
  have hne2 : ¬(hum = cpu) := fun h => h1 (by rw [h2, h])
  unfold minimaxV
  cases fuel <;> simp [minimaxT, h1, h2, hne2]

theorem minimaxV_draw (cfg : EngineCfg) (cpu hum : P) (fuel : Nat) (b : Board)
    (current : P) (h1 : cfg.winFn b ≠ some cpu) (h2 : cfg.winFn b ≠ some hum)
    (h3 : cfg.drawFn b = true) :
    minimaxV cfg cpu hum fuel b current = (0, none) := by
  unfold minimaxV
  cases fuel <;> simp [minimaxT, h1, h2, h3]

theorem minimaxV_succ_max (cfg : EngineCfg) (cpu hum : P) (f : Nat) (b : Board)
    (h1 : cfg.winFn b ≠ some cpu) (h2 : cfg.winFn b ≠ some hum)
    (h3 : cfg.drawFn b = false) :
    minimaxV cfg cpu hum (f + 1) b cpu
      = bestVal (fun s t => decide (t < s))
          (fun m => (minimaxV cfg cpu hum f (b.set m (some cpu)) hum).1)
          (availFrom b) (cfg.lo, none) := by
  have hb := bestLoop_eq (fun s t => decide (t < s)) cpu
      (fun b1 => minimaxT cfg cpu hum f b1 hum)
      (fun b1 => minimaxT_board cfg cpu hum f b1 hum)
      (availFrom b) (cfg.lo, none) b (fun m hm => (mem_avail b m).mp hm)
  unfold minimaxV
  rw [minimaxT, if_neg h1, if_neg h2, if_neg (by simp [h3]), if_pos rfl]
  exact congrArg Prod.fst hb

theorem minimaxV_succ_min (cfg : EngineCfg) (cpu hum : P) (f : Nat) (b : Board)
    (current : P) (h1 : cfg.winFn b ≠ some cpu) (h2 : cfg.winFn b ≠ some hum)
    (h3 : cfg.drawFn b = false) (hcur : current ≠ cpu) :
    minimaxV cfg cpu hum (f + 1) b current
      = bestVal (fun s t => decide (s < t))
          (fun m => (minimaxV cfg cpu hum f (b.set m (some hum)) cpu).1)
          (availFrom b) (cfg.hi, none) := by
  have hb := bestLoop_eq (fun s t => decide (s < t)) hum
      (fun b1 => minimaxT cfg cpu hum f b1 cpu)
      (fun b1 => minimaxT_board cfg cpu hum f b1 cpu)
      (availFrom b) (cfg.hi, none) b (fun m hm => (mem_avail b m).mp hm)
  unfold minimaxV
  rw [minimaxT, if_neg h1, if_neg h2, if_neg (by simp [h3]), if_neg hcur]
  exact congrArg Prod.fst hb

/-- With two distinct marks, any winner is either the cpu or the human mark,
so the four-way terminal test of the source is exhaustive. -/
theorem winner_cases (cfg : EngineCfg) (cpu hum : P) (b : Board)
    (hne : cpu ≠ hum) (h1 : cfg.winFn b ≠ some cpu) (h2 : cfg.winFn b ≠ some hum) :
    cfg.winFn b = none := by
  cases hw : cfg.winFn b with
  | none => rfl
  | some p =>
    rcases P.eq_or_eq p cpu hum hne with rfl | rfl
    · exact absurd hw h1
    · exact absurd hw h2

/-- In the non-terminal branch the move list is non-empty. -/
theorem avail_ne_nil_of_not_draw (cfg : EngineCfg) (cpu hum : P) (b : Board)
    (hne : cpu ≠ hum) (h1 : cfg.winFn b ≠ some cpu) (h2 : cfg.winFn b ≠ some hum)
    (h3 : cfg.drawFn b = false) :
    availFrom b ≠ [] := by
  intro hnil
  have := cfg.full_draw b (winner_cases cfg cpu hum b hne h1 h2) hnil
  rw [this] at h3
  exact absurd h3 (by decide)

/-- Whenever the search returns a move, that move is one of the available
moves of the board it was given. -/
theorem minimaxV_move_mem (cfg : EngineCfg) (cpu hum : P) :
    ∀ (fuel : Nat) (b : Board) (current : P) (m : Nat),
      (minimaxV cfg cpu hum fuel b current).2 = some m → m ∈ availFrom b := by
  intro fuel b current m hm
  cases fuel with
  | zero =>
    exfalso
    revert hm
    unfold minimaxV minimaxT
    split_ifs <;> simp
  | succ f =>
    by_cases h1 : cfg.winFn b = some cpu
    · rw [minimaxV_win_cpu cfg cpu hum _ b current h1] at hm; simp at hm
    · by_cases h2 : cfg.winFn b = some hum
      · rw [minimaxV_win_hum cfg cpu hum _ b current h1 h2] at hm; simp at hm
      · by_cases h3 : cfg.drawFn b = true
        · rw [minimaxV_draw cfg cpu hum _ b current h1 h2 h3] at hm; simp at hm
        · have h3f : cfg.drawFn b = false := by
            cases hd : cfg.drawFn b
            · rfl
            · exact absurd hd h3
          by_cases hc : current = cpu
          · rw [hc, minimaxV_succ_max cfg cpu hum f b h1 h2 h3f] at hm
            rcases bestVal_cases (fun s t => decide (t < s))
              (fun m => (minimaxV cfg cpu hum f (b.set m (some cpu)) hum).1)
              (availFrom b) (cfg.lo, none) with h | ⟨m2, hm2, h⟩
            · rw [h] at hm; simp at hm
            · rw [h] at hm
              simp only at hm
              exact Option.some_inj.mp hm ▸ hm2
          · rw [minimaxV_succ_min cfg cpu hum f b current h1 h2 h3f hc] at hm
            rcases bestVal_cases (fun s t => decide (s < t))
              (fun m => (minimaxV cfg cpu hum f (b.set m (some hum)) cpu).1)
              (availFrom b) (cfg.hi, none) with h | ⟨m2, hm2, h⟩
            · rw [h] at hm; simp at hm
            · rw [h] at hm
              simp only at hm
              exact Option.some_inj.mp hm ▸ hm2

/-- A position one move from the end in which the engine (X, to move) wins:
used to instantiate the no-loss theorem at a concrete input. -/
def nearWinBoard : Board :=
  [some P.X, some P.O, some P.X,
   some P.O, some P.X, some P.O,
   some P.O, some P.X, none]

theorem minimaxT_pair (cfg : EngineCfg) (cpu hum : P) (fuel : Nat) (b : Board)
    (current : P) :
    minimaxT cfg cpu hum fuel b current = (minimaxV cfg cpu hum fuel b current, b) := by
  rw [show (minimaxV cfg cpu hum fuel b current, b)
      = ((minimaxT cfg cpu hum fuel b current).1, (minimaxT cfg cpu hum fuel b current).2) from by
    rw [minimaxT_board cfg cpu hum fuel b current]; rfl]

theorem minimaxV_fuel_congr (cfg : EngineCfg) (cpu hum : P) (hne : cpu ≠ hum) :
    ∀ (f1 f2 : Nat) (b : Board) (current : P),
      (availFrom b).length ≤ f1 → (availFrom b).length ≤ f2 →
      minimaxV cfg cpu hum f1 b current = minimaxV cfg cpu hum f2 b current := by
  intro f1
  induction f1 with
  | zero =>
    intro f2 b current h1len h2len
    have hnil : availFrom b = [] :=
      List.length_eq_zero.mp (Nat.le_zero.mp h1len)
    by_cases h1 : cfg.winFn b = some cpu
    · rw [minimaxV_win_cpu cfg cpu hum 0 b current h1,
        minimaxV_win_cpu cfg cpu hum f2 b current h1]
    · by_cases h2 : cfg.winFn b = some hum
      · rw [minimaxV_win_hum cfg cpu hum 0 b current h1 h2,
          minimaxV_win_hum cfg cpu hum f2 b current h1 h2]
      · have h3 : cfg.drawFn b = true :=
          cfg.full_draw b (winner_cases cfg cpu hum b hne h1 h2) hnil
        rw [minimaxV_draw cfg cpu hum 0 b current h1 h2 h3,
          minimaxV_draw cfg cpu hum f2 b current h1 h2 h3]
  | succ g ih =>
    intro f2 b current h1len h2len
    by_cases h1 : cfg.winFn b = some cpu
    · rw [minimaxV_win_cpu cfg cpu hum _ b current h1,
        minimaxV_win_cpu cfg cpu hum f2 b current h1]
    · by_cases h2 : cfg.winFn b = some hum
      · rw [minimaxV_win_hum cfg cpu hum _ b current h1 h2,
          minimaxV_win_hum cfg cpu hum f2 b current h1 h2]
      · by_cases h3 : cfg.drawFn b = true
        · rw [minimaxV_draw cfg cpu hum _ b current h1 h2 h3,
            minimaxV_draw cfg cpu hum f2 b current h1 h2 h3]
        · have h3f : cfg.drawFn b = false := by
            cases hd : cfg.drawFn b
            · rfl
            · exact absurd hd h3
          have hnil : availFrom b ≠ [] :=
            avail_ne_nil_of_not_draw cfg cpu hum b hne h1 h2 h3f
          have hpos : 1 ≤ (availFrom b).length := by
            cases he : availFrom b with
            | nil => exact absurd he hnil
            | cons a t => simp [he]
          cases f2 with
          | zero => omega
          | succ h =>
            have hchild : ∀ m ∈ availFrom b, ∀ p : P,
                (availFrom (b.set m (some p))).length + 1 = (availFrom b).length :=
              fun m hm p => avail_set_length b m p hm
            by_cases hc : current = cpu
            · rw [hc, minimaxV_succ_max cfg cpu hum g b h1 h2 h3f,
                minimaxV_succ_max cfg cpu hum h b h1 h2 h3f]
              refine bestVal_congr _ _ _ (availFrom b) (cfg.lo, none) ?_
              intro m hm
              have hcl := avail_set_length b m cpu hm
              exact congrArg Prod.fst (ih h (b.set m (some cpu)) hum (by omega) (by omega))
            · rw [minimaxV_succ_min cfg cpu hum g b current h1 h2 h3f hc,
                minimaxV_succ_min cfg cpu hum h b current h1 h2 h3f hc]
              refine bestVal_congr _ _ _ (availFrom b) (cfg.hi, none) ?_
              intro m hm
              have hcl := avail_set_length b m hum hm
              exact congrArg Prod.fst (ih h (b.set m (some hum)) cpu (by omega) (by omega))

/-- C9: the minimax recursion of both modules is fuel-indifferent beyond
depth 9: on any 9-cell board (so at most 9 empty cells, each recursive call
losing one), every fuel bound of at least 9 gives exactly the same result
as fuel 9, so the recursion depth never exceeds 9 and the embedded search
is a total function of the board. -/
theorem c9_minimax_depth_at_most_nine (cpu hum : P) (b : Board) (current : P)
    (fuel : Nat) (hne : cpu ≠ hum) (hb : b.length = 9) (hf : 9 ≤ fuel) :
    minimaxT guiCfg cpu hum fuel b current = minimaxT guiCfg cpu hum 9 b current
    ∧ minimaxT consoleCfg cpu hum fuel b current
        = minimaxT consoleCfg cpu hum 9 b current := by
  have hlen : (availFrom b).length ≤ 9 := by
    have := avail_length_le b
    omega
  constructor
  · rw [minimaxT_pair, minimaxT_pair,
      minimaxV_fuel_congr guiCfg cpu hum hne fuel 9 b current (le_trans hlen hf) hlen]
  · rw [minimaxT_pair, minimaxT_pair,
      minimaxV_fuel_congr consoleCfg cpu hum hne fuel 9 b current (le_trans hlen hf) hlen]

theorem c9_minimax_depth_at_most_nine_witness :
    minimaxT guiCfg P.X P.O 12 nearWinBoard P.X
      = minimaxT guiCfg P.X P.O 9 nearWinBoard P.X
    ∧ minimaxT consoleCfg P.X P.O 12 nearWinBoard P.X
        = minimaxT consoleCfg P.X P.O 9 nearWinBoard P.X :=
  c9_minimax_depth_at_most_nine P.X P.O nearWinBoard P.X 12
    (by decide) (by decide) (by decide)

/-! ## The win/block probe of the Medium tier -/

theorem fwmLoop_spec (winFn : Board → Option P) (p : P) :
    ∀ (ms : List Nat) (b : Board),
      ms.Pairwise (· < ·) →
      (∀ m ∈ ms, b[m]? = some none) →
      ∀ m : Nat,
        ((fwmLoop winFn p ms b).1 = some m ↔
          m ∈ ms ∧ winFn (b.set m (some p)) = some p
            ∧ ∀ m2 ∈ ms, m2 < m → winFn (b.set m2 (some p)) ≠ some p) := by
  intro ms
  induction ms with
  | nil =>
    intro b _ _ m
    simp [fwmLoop]
  | cons a t ih =>
    intro b hsort hms m
    have ha : b[a]? = some none := hms a (List.mem_cons_self a t)
    have hrestore : (b.set a (some p)).set a none = b := by
      rw [List.set_set]
      exact set_restore b a none ha
    have hlt : ∀ m2 ∈ t, a < m2 := fun m2 hm2 => (List.pairwise_cons.mp hsort).1 m2 hm2
    by_cases hw : winFn (b.set a (some p)) = some p
    · rw [show (fwmLoop winFn p (a :: t) b).1 = some a from by simp [fwmLoop, hw]]
      constructor
      · intro hsome
        have hma : m = a := (Option.some_inj.mp hsome).symm
        refine ⟨hma ▸ List.mem_cons_self a t, hma ▸ hw, ?_⟩
        intro m2 hm2 hm2m
        rcases List.mem_cons.mp hm2 with rfl | hm2t
        · omega
        · have := hlt m2 hm2t
          omega
      · rintro ⟨hmem, hwin, hleast⟩
        rcases List.mem_cons.mp hmem with rfl | hmt
        · rfl
        · have := hlt m hmt
          exact absurd hw (hleast a (List.mem_cons_self a t) this)
    · rw [show (fwmLoop winFn p (a :: t) b).1
          = (fwmLoop winFn p t b).1 from by simp [fwmLoop, hw, hrestore]]
      rw [ih b (List.pairwise_cons.mp hsort).2
        (fun x hx => hms x (List.mem_cons_of_mem a hx)) m]
      constructor
      · rintro ⟨hmt, hwin, hleast⟩
        refine ⟨List.mem_cons_of_mem a hmt, hwin, ?_⟩
        intro m2 hm2 hm2m
        rcases List.mem_cons.mp hm2 with rfl | hm2t
        · exact hw
        · exact hleast m2 hm2t hm2m
      · rintro ⟨hmem, hwin, hleast⟩
        rcases List.mem_cons.mp hmem with rfl | hmt
        · exact absurd hwin hw
        · exact ⟨hmt, hwin, fun m2 hm2 hm2m => hleast m2 (List.mem_cons_of_mem a hm2) hm2m⟩

theorem fwmLoop_none (winFn : Board → Option P) (p : P) :
    ∀ (ms : List Nat) (b : Board),
      (∀ m ∈ ms, b[m]? = some none) →
      ((fwmLoop winFn p ms b).1 = none ↔
        ∀ m ∈ ms, winFn (b.set m (some p)) ≠ some p) := by
  intro ms
  induction ms with
  | nil =>
    intro b _
    simp [fwmLoop]
  | cons a t ih =>
    intro b hms
    have ha : b[a]? = some none := hms a (List.mem_cons_self a t)
    have hrestore : (b.set a (some p)).set a none = b := by
      rw [List.set_set]
      exact set_restore b a none ha
    by_cases hw : winFn (b.set a (some p)) = some p
    · rw [show (fwmLoop winFn p (a :: t) b).1 = some a from by simp [fwmLoop, hw]]
      constructor
      · intro hc
        exact absurd hc (by simp)
      · intro hall
        exact absurd hw (hall a (List.mem_cons_self a t))
    · rw [show (fwmLoop winFn p (a :: t) b).1
          = (fwmLoop winFn p t b).1 from by simp [fwmLoop, hw, hrestore]]
      rw [ih b (fun x hx => hms x (List.mem_cons_of_mem a hx))]
      constructor
      · intro hall m hm
        rcases List.mem_cons.mp hm with rfl | hmt
        · exact hw
        · exact hall m hmt
      · intro hall m hm
        exact hall m (List.mem_cons_of_mem a hm)

theorem find_winning_move_spec (winFn : Board → Option P) (b : Board) (p : P)
    (m : Nat) :
    (find_winning_moveT winFn b p).1 = some m ↔
      m ∈ availFrom b ∧ winFn (b.set m (some p)) = some p
        ∧ ∀ m2 ∈ availFrom b, m2 < m → winFn (b.set m2 (some p)) ≠ some p :=
  fwmLoop_spec winFn p (availFrom b) b (avail_sorted b)
    (fun x hx => (mem_avail b x).mp hx) m

theorem find_winning_move_none (winFn : Board → Option P) (b : Board) (p : P) :
    (find_winning_moveT winFn b p).1 = none ↔
      ∀ m ∈ availFrom b, winFn (b.set m (some p)) ≠ some p :=
  fwmLoop_none winFn p (availFrom b) b (fun x hx => (mem_avail b x).mp hx)

theorem fwm_pair (winFn : Board → Option P) (b : Board) (p : P)
    (mo : Option Nat) (h : (find_winning_moveT winFn b p).1 = mo) :
    find_winning_moveT winFn b p = (mo, b) := by
  calc find_winning_moveT winFn b p
      = ((find_winning_moveT winFn b p).1, (find_winning_moveT winFn b p).2) := rfl
    _ = (mo, b) := by rw [h, find_winning_moveT_board]

/-- C3: in both modules the Medium tier first takes the lowest-index legal
move that its own winner scan reports as an immediate win for the engine;
only when no such move exists does it probe for an immediate opponent
win and return the lowest-index blocking move; only when neither exists
does control fall through to the random / weighted step.  (The probes are
in ascending index order, so the move returned by the probe is the least
winning / blocking index; the iff records that falling through happens
exactly when no immediate win exists.) -/
theorem c3_medium_win_first_then_block (b : Board) (cpu hum : P) (rf : ℚ)
    (rc : Nat) (m : Nat) :
    (((find_winning_moveT Gui.winner_of b cpu).1 = some m →
        (Gui.pick_cpu_move b Diff.medium cpu hum rf rc).1 = Except.ok m
        ∧ m ∈ availFrom b ∧ Gui.winner_of (b.set m (some cpu)) = some cpu
        ∧ ∀ m2 ∈ availFrom b, m2 < m → Gui.winner_of (b.set m2 (some cpu)) ≠ some cpu)
      ∧ ((find_winning_moveT Gui.winner_of b cpu).1 = none →
          (find_winning_moveT Gui.winner_of b hum).1 = some m →
        (Gui.pick_cpu_move b Diff.medium cpu hum rf rc).1 = Except.ok m
        ∧ m ∈ availFrom b ∧ Gui.winner_of (b.set m (some hum)) = some hum
        ∧ ∀ m2 ∈ availFrom b, m2 < m → Gui.winner_of (b.set m2 (some hum)) ≠ some hum)
      ∧ ((find_winning_moveT Gui.winner_of b cpu).1 = none ↔
          ∀ w ∈ availFrom b, Gui.winner_of (b.set w (some cpu)) ≠ some cpu))
    ∧ (((find_winning_moveT Console.check_winner b cpu).1 = some m →
        (Console.cpu_move b Diff.medium cpu hum rc).1 = Except.ok m
        ∧ m ∈ availFrom b ∧ Console.check_winner (b.set m (some cpu)) = some cpu
        ∧ ∀ m2 ∈ availFrom b, m2 < m →
            Console.check_winner (b.set m2 (some cpu)) ≠ some cpu)
      ∧ ((find_winning_moveT Console.check_winner b cpu).1 = none →
          (find_winning_moveT Console.check_winner b hum).1 = some m →
        (Console.cpu_move b Diff.medium cpu hum rc).1 = Except.ok m
        ∧ m ∈ availFrom b ∧ Console.check_winner (b.set m (some hum)) = some hum
        ∧ ∀ m2 ∈ availFrom b, m2 < m →
            Console.check_winner (b.set m2 (some hum)) ≠ some hum)
      ∧ ((find_winning_moveT Console.check_winner b cpu).1 = none ↔
          ∀ w ∈ availFrom b, Console.check_winner (b.set w (some cpu)) ≠ some cpu)) := by
  constructor
  · refine ⟨?_, ?_, find_winning_move_none Gui.winner_of b cpu⟩
    · intro hwin
      obtain ⟨hmem, hw, hleast⟩ := (find_winning_move_spec Gui.winner_of b cpu m).mp hwin
      refine ⟨?_, hmem, hw, hleast⟩
      have hpair := fwm_pair Gui.winner_of b cpu (some m) hwin
      simp [Gui.pick_cpu_move, hpair]
    · intro hnone hblock
      obtain ⟨hmem, hw, hleast⟩ := (find_winning_move_spec Gui.winner_of b hum m).mp hblock
      refine ⟨?_, hmem, hw, hleast⟩
      have hpair1 := fwm_pair Gui.winner_of b cpu none hnone
      have hpair2 := fwm_pair Gui.winner_of b hum (some m) hblock
      simp [Gui.pick_cpu_move, hpair1, hpair2]
  · refine ⟨?_, ?_, find_winning_move_none Console.check_winner b cpu⟩
    · intro hwin
      obtain ⟨hmem, hw, hleast⟩ :=
        (find_winning_move_spec Console.check_winner b cpu m).mp hwin
      refine ⟨?_, hmem, hw, hleast⟩
      have hpair := fwm_pair Console.check_winner b cpu (some m) hwin
      simp [Console.cpu_move, hpair]
    · intro hnone hblock
      obtain ⟨hmem, hw, hleast⟩ :=
        (find_winning_move_spec Console.check_winner b hum m).mp hblock
      refine ⟨?_, hmem, hw, hleast⟩
      have hpair1 := fwm_pair Console.check_winner b cpu none hnone
      have hpair2 := fwm_pair Console.check_winner b hum (some m) hblock
      simp [Console.cpu_move, hpair1, hpair2]

/-- Spec test boards: [X,X,_, O,O,_, _,_,_] (take the win at 2) for the win
step of the witness. -/
def winProbeBoard : Board :=
  [some P.X, some P.X, none, some P.O, some P.O, none, none, none, none]

theorem c3_medium_win_first_then_block_witness :
    (Gui.pick_cpu_move winProbeBoard Diff.medium P.X P.O 0 0).1 = Except.ok 2
    ∧ (Console.cpu_move winProbeBoard Diff.medium P.X P.O 0).1 = Except.ok 2 := by
  have h := c3_medium_win_first_then_block winProbeBoard P.X P.O 0 0 2
  exact ⟨(h.1.1 (by decide)).1, (h.2.1 (by decide)).1⟩

/-! ## Legality of returned moves, and behaviour on full boards -/

theorem getD_mem (l : List Nat) (n : Nat) (h : n < l.length) : l.getD n 0 ∈ l := by
  induction l generalizing n with
  | nil => simp at h
  | cons a t ih =>
    cases n with
    | zero => simp
    | succ k =>
      simp only [List.getD_cons_succ]
      exact List.mem_cons_of_mem a (ih k (by simpa using h))

theorem choice_ok_mem (l : List Nat) (r m : Nat) (h : choice l r = Except.ok m) :
    m ∈ l := by
  unfold choice at h
  by_cases he : l.isEmpty
  · rw [if_pos he] at h
    exact absurd h (by simp)
  · rw [if_neg he] at h
    have hlen : 0 < l.length := by
      cases l with
      | nil => simp at he
      | cons a t => simp
    have hmem := getD_mem l (r % l.length) (Nat.mod_lt r hlen)
    have hm : l.getD (r % l.length) 0 = m := by simpa using h
    rwa [hm] at hmem

theorem easy_ok_mem (b : Board) (rc m : Nat)
    (h : Console.cpu_move_easy b rc = Except.ok m) : m ∈ availFrom b := by
  unfold Console.cpu_move_easy at h
  by_cases he : (availFrom b).isEmpty
  · rw [if_pos he] at h
    exact absurd h (by simp)
  · rw [if_neg he] at h
    have hlen : 0 < (availFrom b).length := by
      cases hav : availFrom b with
      | nil => rw [hav] at he; simp at he
      | cons a t => simp
    have hmem := getD_mem (availFrom b) (rc % (availFrom b).length) (Nat.mod_lt rc hlen)
    have hm : (availFrom b).getD (rc % (availFrom b).length) 0 = m := by simpa using h
    rwa [hm] at hmem

theorem rep_mem (l : List Nat) (n x : Nat) (h : x ∈ rep l n) : x ∈ l := by
  unfold rep at h
  obtain ⟨l2, hl2, hx⟩ := List.mem_flatten.mp h
  rwa [List.eq_of_mem_replicate hl2] at hx

theorem rep_nil (n : Nat) : rep [] n = [] := by
  induction n with
  | zero => rfl
  | succ k ih =>
    unfold rep at ih
    simp [rep, List.replicate_succ, ih]

theorem weighted_pool_subset (b : Board) (x : Nat)
    (h : x ∈ Gui.weighted_pool b) : x ∈ availFrom b := by
  unfold Gui.weighted_pool at h
  rcases List.mem_append.mp h with h1 | h1
  · rcases List.mem_append.mp h1 with h2 | h2
    · have := rep_mem _ 5 x h2
      by_cases hc : 4 ∈ Gui.available_moves b
      · rw [if_pos hc] at this
        simp only [List.mem_singleton] at this
        rwa [this]
      · rw [if_neg hc] at this
        simp at this
    · have := rep_mem _ 3 x h2
      have := List.mem_filter.mp this
      simpa using this.2
  · have := rep_mem _ 1 x h1
    have := List.mem_filter.mp this
    simpa using this.2

theorem minimaxV_move_none_of_full (cfg : EngineCfg) (cpu hum : P) (fuel : Nat)
    (b : Board) (current : P) (hfull : availFrom b = []) :
    (minimaxV cfg cpu hum fuel b current).2 = none := by
  cases hmo : (minimaxV cfg cpu hum fuel b current).2 with
  | none => rfl
  | some m =>
    have := minimaxV_move_mem cfg cpu hum fuel b current m hmo
    rw [hfull] at this
    simp at this

/-- C10: whenever a tier returns a move (rather than failing), that move is
one of the currently empty cells of the board it was given, in both
modules and for every difficulty tier, so the caller can always apply it. -/
theorem c10_returned_move_is_legal (b : Board) (d : Diff) (cpu hum : P)
    (rf : ℚ) (rc : Nat) (m : Nat) :
    ((Gui.pick_cpu_move b d cpu hum rf rc).1 = Except.ok m → m ∈ availFrom b)
    ∧ ((Console.cpu_move b d cpu hum rc).1 = Except.ok m → m ∈ availFrom b) := by
  constructor
  · intro h
    cases d with
    | easy =>
      exact choice_ok_mem _ rc m (by simpa [Gui.pick_cpu_move] using h)
    | medium =>
      rcases e1 : (find_winning_moveT Gui.winner_of b cpu).1 with _ | m1
      · rcases e2 : (find_winning_moveT Gui.winner_of b hum).1 with _ | m2
        · have hpair1 := fwm_pair Gui.winner_of b cpu none e1
          have hpair2 := fwm_pair Gui.winner_of b hum none e2
          rw [show (Gui.pick_cpu_move b Diff.medium cpu hum rf rc).1
              = (if rf < 1 / 4 then choice (Gui.available_moves b) rc
                 else choice (if (Gui.weighted_pool b).isEmpty then Gui.available_moves b
                   else Gui.weighted_pool b) rc) from by
            simp only [Gui.pick_cpu_move, hpair1, hpair2]
            split_ifs <;> rfl] at h
          by_cases hrf : rf < 1 / 4
          · rw [if_pos hrf] at h
            exact choice_ok_mem _ rc m h
          · rw [if_neg hrf] at h
            by_cases hwp : (Gui.weighted_pool b).isEmpty
            · rw [if_pos hwp] at h
              exact choice_ok_mem _ rc m h
            · rw [if_neg hwp] at h
              exact weighted_pool_subset b m (choice_ok_mem _ rc m h)
        · have hpair1 := fwm_pair Gui.winner_of b cpu none e1
          have hpair2 := fwm_pair Gui.winner_of b hum (some m2) e2
          have : m2 = m := by
            have := h
            rw [show (Gui.pick_cpu_move b Diff.medium cpu hum rf rc).1
                = Except.ok m2 from by simp [Gui.pick_cpu_move, hpair1, hpair2]] at this
            simpa using this
          rw [← this]
          exact ((find_winning_move_spec Gui.winner_of b hum m2).mp e2).1
      · have hpair1 := fwm_pair Gui.winner_of b cpu (some m1) e1
        have : m1 = m := by
          have := h
          rw [show (Gui.pick_cpu_move b Diff.medium cpu hum rf rc).1
              = Except.ok m1 from by simp [Gui.pick_cpu_move, hpair1]] at this
          simpa using this
        rw [← this]
        exact ((find_winning_move_spec Gui.winner_of b cpu m1).mp e1).1
    | hard =>
      rcases e1 : (minimaxV guiCfg cpu hum 9 b cpu).2 with _ | m1
      · have hpair : minimaxT guiCfg cpu hum 9 b cpu
            = (((minimaxV guiCfg cpu hum 9 b cpu).1, none), b) := by
          rw [minimaxT_pair]
          rw [show (minimaxV guiCfg cpu hum 9 b cpu)
              = ((minimaxV guiCfg cpu hum 9 b cpu).1, (minimaxV guiCfg cpu hum 9 b cpu).2) from rfl,
            e1]
        rw [show (Gui.pick_cpu_move b Diff.hard cpu hum rf rc).1
            = choice (Gui.available_moves b) rc from by
          simp [Gui.pick_cpu_move, hpair]] at h
        exact choice_ok_mem _ rc m h
      · have hpair : minimaxT guiCfg cpu hum 9 b cpu
            = (((minimaxV guiCfg cpu hum 9 b cpu).1, some m1), b) := by
          rw [minimaxT_pair]
          rw [show (minimaxV guiCfg cpu hum 9 b cpu)
              = ((minimaxV guiCfg cpu hum 9 b cpu).1, (minimaxV guiCfg cpu hum 9 b cpu).2) from rfl,
            e1]
        have : m1 = m := by
          have := h
          rw [show (Gui.pick_cpu_move b Diff.hard cpu hum rf rc).1
              = Except.ok m1 from by simp [Gui.pick_cpu_move, hpair]] at this
          simpa using this
        rw [← this]
        exact minimaxV_move_mem guiCfg cpu hum 9 b cpu m1 e1
  · intro h
    cases d with
    | easy =>
      exact easy_ok_mem b rc m (by simpa [Console.cpu_move] using h)
    | medium =>
      rcases e1 : (find_winning_moveT Console.check_winner b cpu).1 with _ | m1
      · rcases e2 : (find_winning_moveT Console.check_winner b hum).1 with _ | m2
        · have hpair1 := fwm_pair Console.check_winner b cpu none e1
          have hpair2 := fwm_pair Console.check_winner b hum none e2
          rw [show (Console.cpu_move b Diff.medium cpu hum rc).1
              = Console.cpu_move_easy b rc from by
            simp [Console.cpu_move, hpair1, hpair2]] at h
          exact easy_ok_mem b rc m h
        · have hpair1 := fwm_pair Console.check_winner b cpu none e1
          have hpair2 := fwm_pair Console.check_winner b hum (some m2) e2
          have : m2 = m := by
            have := h
            rw [show (Console.cpu_move b Diff.medium cpu hum rc).1
                = Except.ok m2 from by simp [Console.cpu_move, hpair1, hpair2]] at this
            simpa using this
          rw [← this]
          exact ((find_winning_move_spec Console.check_winner b hum m2).mp e2).1
      · have hpair1 := fwm_pair Console.check_winner b cpu (some m1) e1
        have : m1 = m := by
          have := h
          rw [show (Console.cpu_move b Diff.medium cpu hum rc).1
              = Except.ok m1 from by simp [Console.cpu_move, hpair1]] at this
          simpa using this
        rw [← this]
        exact ((find_winning_move_spec Console.check_winner b cpu m1).mp e1).1
    | hard =>
      rcases e1 : (minimaxV consoleCfg cpu hum 9 b cpu).2 with _ | m1
      · have hpair : minimaxT consoleCfg cpu hum 9 b cpu
            = (((minimaxV consoleCfg cpu hum 9 b cpu).1, none), b) := by
          rw [minimaxT_pair]
          rw [show (minimaxV consoleCfg cpu hum 9 b cpu)
              = ((minimaxV consoleCfg cpu hum 9 b cpu).1, (minimaxV consoleCfg cpu hum 9 b cpu).2) from rfl,
            e1]
        rw [show (Console.cpu_move b Diff.hard cpu hum rc).1
            = Console.cpu_move_easy b rc from by
          simp [Console.cpu_move, hpair]] at h
        exact easy_ok_mem b rc m h
      · have hpair : minimaxT consoleCfg cpu hum 9 b cpu
            = (((minimaxV consoleCfg cpu hum 9 b cpu).1, some m1), b) := by
          rw [minimaxT_pair]
          rw [show (minimaxV consoleCfg cpu hum 9 b cpu)
              = ((minimaxV consoleCfg cpu hum 9 b cpu).1, (minimaxV consoleCfg cpu hum 9 b cpu).2) from rfl,
            e1]
        have : m1 = m := by
          have := h
          rw [show (Console.cpu_move b Diff.hard cpu hum rc).1
              = Except.ok m1 from by simp [Console.cpu_move, hpair]] at this
          simpa using this
        rw [← this]
        exact minimaxV_move_mem consoleCfg cpu hum 9 b cpu m1 e1

theorem c10_returned_move_is_legal_witness :
    (Gui.pick_cpu_move winProbeBoard Diff.easy P.X P.O 0 0).1 = Except.ok 2
    ∧ 2 ∈ availFrom winProbeBoard
    ∧ (Console.cpu_move winProbeBoard Diff.easy P.X P.O 0).1 = Except.ok 2
    ∧ 2 ∈ availFrom winProbeBoard := by
  refine ⟨by rfl, ?_, by rfl, ?_⟩
  · exact (c10_returned_move_is_legal winProbeBoard Diff.easy P.X P.O 0 0 2).1 (by rfl)
  · exact (c10_returned_move_is_legal winProbeBoard Diff.easy P.X P.O 0 0 2).2 (by rfl)

theorem weighted_pool_nil (b : Board) (hfull : availFrom b = []) :
    Gui.weighted_pool b = [] := by
  rw [List.eq_nil_iff_forall_not_mem]
  intro x hx
  have hmem := weighted_pool_subset b x hx
  rw [hfull] at hmem
  simp at hmem

/-- C7: on a full board (no legal move) every tier of both modules fails
instead of returning an index: the GUI module fails with the IndexError
that random.choice raises on an empty sequence, and the console module
fails with its dedicated RuntimeError("No available moves for CPU."). -/
theorem c7_full_board_fails (b : Board) (d : Diff) (cpu hum : P) (rf : ℚ)
    (rc : Nat) (hfull : availFrom b = []) :
    (Gui.pick_cpu_move b d cpu hum rf rc).1 = Except.error CpuErr.emptyChoice
    ∧ (Console.cpu_move b d cpu hum rc).1 = Except.error CpuErr.noMoves := by
  have hch : choice (Gui.available_moves b) rc = Except.error CpuErr.emptyChoice := by
    simp [choice, Gui.available_moves, hfull]
  have heasy : Console.cpu_move_easy b rc = Except.error CpuErr.noMoves := by
    simp [Console.cpu_move_easy, hfull]
  have hwp := weighted_pool_nil b hfull
  constructor
  · cases d with
    | easy => simpa [Gui.pick_cpu_move] using hch
    | medium =>
      have hf1 : find_winning_moveT Gui.winner_of b cpu = (none, b) := by
        unfold find_winning_moveT
        rw [hfull]
        rfl
      have hf2 : find_winning_moveT Gui.winner_of b hum = (none, b) := by
        unfold find_winning_moveT
        rw [hfull]
        rfl
      rw [show (Gui.pick_cpu_move b Diff.medium cpu hum rf rc).1
          = (if rf < 1 / 4 then choice (Gui.available_moves b) rc
             else choice (if (Gui.weighted_pool b).isEmpty then Gui.available_moves b
               else Gui.weighted_pool b) rc) from by
        simp only [Gui.pick_cpu_move, hf1, hf2]
        split_ifs <;> rfl]
      rw [hwp]
      split_ifs <;> simpa [Gui.available_moves, choice, hfull] using hch
    | hard =>
      have hmo := minimaxV_move_none_of_full guiCfg cpu hum 9 b cpu hfull
      have hpair : minimaxT guiCfg cpu hum 9 b cpu
          = (((minimaxV guiCfg cpu hum 9 b cpu).1, none), b) := by
        rw [minimaxT_pair]
        rw [show (minimaxV guiCfg cpu hum 9 b cpu)
            = ((minimaxV guiCfg cpu hum 9 b cpu).1, (minimaxV guiCfg cpu hum 9 b cpu).2) from rfl,
          hmo]
      rw [show (Gui.pick_cpu_move b Diff.hard cpu hum rf rc).1
          = choice (Gui.available_moves b) rc from by
        simp [Gui.pick_cpu_move, hpair]]
      exact hch
  · cases d with
    | easy => simpa [Console.cpu_move] using heasy
    | medium =>
      have hf1 : find_winning_moveT Console.check_winner b cpu = (none, b) := by
        unfold find_winning_moveT
        rw [hfull]
        rfl
      have hf2 : find_winning_moveT Console.check_winner b hum = (none, b) := by
        unfold find_winning_moveT
        rw [hfull]
        rfl
      rw [show (Console.cpu_move b Diff.medium cpu hum rc).1
          = Console.cpu_move_easy b rc from by
        simp [Console.cpu_move, hf1, hf2]]
      exact heasy
    | hard =>
      have hmo := minimaxV_move_none_of_full consoleCfg cpu hum 9 b cpu hfull
      have hpair : minimaxT consoleCfg cpu hum 9 b cpu
          = (((minimaxV consoleCfg cpu hum 9 b cpu).1, none), b) := by
        rw [minimaxT_pair]
        rw [show (minimaxV consoleCfg cpu hum 9 b cpu)
            = ((minimaxV consoleCfg cpu hum 9 b cpu).1, (minimaxV consoleCfg cpu hum 9 b cpu).2) from rfl,
          hmo]
      rw [show (Console.cpu_move b Diff.hard cpu hum rc).1
          = Console.cpu_move_easy b rc from by
        simp [Console.cpu_move, hpair]]
      exact heasy

/-- The full drawn board [X,O,X, X,O,O, O,X,X] used by the draw
test of the spec. -/
def fullDrawBoard : Board :=
  [some P.X, some P.O, some P.X,
   some P.X, some P.O, some P.O,
   some P.O, some P.X, some P.X]

theorem c7_full_board_fails_witness :
    availFrom fullDrawBoard = []
    ∧ (Gui.pick_cpu_move fullDrawBoard Diff.hard P.O P.X 0 0).1
        = Except.error CpuErr.emptyChoice
    ∧ (Console.cpu_move fullDrawBoard Diff.hard P.O P.X 0).1
        = Except.error CpuErr.noMoves := by
  refine ⟨by decide, ?_, ?_⟩
  · exact (c7_full_board_fails fullDrawBoard Diff.hard P.O P.X 0 0 (by decide)).1
  · exact (c7_full_board_fails fullDrawBoard Diff.hard P.O P.X 0 0 (by decide)).2

/-! ## The Medium-tier fallback distributions -/

theorem rep_count (l : List Nat) (n x : Nat) : (rep l n).count x = n * l.count x := by
  induction n with
  | zero => simp [rep]
  | succ k ih =>
    have hstep : rep l (k + 1) = l ++ rep l k := by
      unfold rep
      rw [List.replicate_succ, List.flatten_cons]
    rw [hstep, List.count_append, ih]
    ring

theorem count_filter_decide (base : List Nat) (l : List Nat) (x : Nat) :
    (base.filter (fun i => decide (i ∈ l))).count x
      = if x ∈ l then base.count x else 0 := by
  by_cases hx : x ∈ l
  · rw [if_pos hx, List.count_filter (by simpa using hx)]
  · rw [if_neg hx, List.count_eq_zero]
    intro hc
    exact hx (by simpa using (List.mem_filter.mp hc).2)

/-- Exact multiplicity of each index in the weighted fallback pool: the
center 5 times when legal, each corner 3 times when legal, each edge once
when legal, everything else absent. -/
theorem weighted_pool_count (b : Board) (x : Nat) :
    (Gui.weighted_pool b).count x
      = (if x = 4 ∧ x ∈ availFrom b then 5 else 0)
        + (if (x = 0 ∨ x = 2 ∨ x = 6 ∨ x = 8) ∧ x ∈ availFrom b then 3 else 0)
        + (if (x = 1 ∨ x = 3 ∨ x = 5 ∨ x = 7) ∧ x ∈ availFrom b then 1 else 0) := by
  unfold Gui.weighted_pool
  simp only [Gui.available_moves]
  rw [List.count_append, List.count_append, rep_count, rep_count, rep_count,
    count_filter_decide, count_filter_decide]
  have hcor : ([0, 2, 6, 8] : List Nat).count x
      = if x = 0 ∨ x = 2 ∨ x = 6 ∨ x = 8 then 1 else 0 := by
    by_cases hx : x = 0 ∨ x = 2 ∨ x = 6 ∨ x = 8
    · rw [if_pos hx]
      rcases hx with rfl | rfl | rfl | rfl <;> decide
    · rw [if_neg hx, List.count_eq_zero]
      intro hmem
      exact hx (by simpa using hmem)
  have hedg : ([1, 3, 5, 7] : List Nat).count x
      = if x = 1 ∨ x = 3 ∨ x = 5 ∨ x = 7 then 1 else 0 := by
    by_cases hx : x = 1 ∨ x = 3 ∨ x = 5 ∨ x = 7
    · rw [if_pos hx]
      rcases hx with rfl | rfl | rfl | rfl <;> decide
    · rw [if_neg hx, List.count_eq_zero]
      intro hmem
      exact hx (by simpa using hmem)
  have hcen : (if (4 : Nat) ∈ availFrom b then ([4] : List Nat) else []).count x
      = if x = 4 ∧ x ∈ availFrom b then 1 else 0 := by
    by_cases h4 : (4 : Nat) ∈ availFrom b
    · rw [if_pos h4]
      by_cases hx4 : x = 4
      · subst hx4
        rw [if_pos ⟨rfl, h4⟩]
        decide
      · have hz : ([4] : List Nat).count x = 0 := by
          rw [List.count_eq_zero]
          simpa using hx4
        rw [hz, if_neg (fun hcon => hx4 hcon.1)]
    · rw [if_neg h4]
      by_cases hx4 : x = 4
      · subst hx4
        rw [if_neg (fun hcon => h4 hcon.2)]
        simp
      · rw [if_neg (fun hcon => hx4 hcon.1)]
        simp
  rw [hcen, hcor, hedg]
  by_cases hm : x ∈ availFrom b <;> by_cases h4 : x = 4 <;>
    by_cases hc : x = 0 ∨ x = 2 ∨ x = 6 ∨ x = 8 <;>
      by_cases he2 : x = 1 ∨ x = 3 ∨ x = 5 ∨ x = 7 <;>
        simp [hm, h4, hc, he2]

/-- Probability that random.choice over l returns x: the distribution
semantics of a single uniform draw (0 when l is empty). -/
def uniformProb (l : List Nat) (x : Nat) : ℚ := (l.count x : ℚ) / (l.length : ℚ)

/-- Distribution of the Medium fallback of pick_cpu_move (tiktaktoe.py):
with probability 1/4 a uniform choice over legal moves (random.random() <
0.25), otherwise a uniform draw from the weighted pool (from the legal
moves when the pool is empty). -/
def Gui.medium_fallback_prob (b : Board) (x : Nat) : ℚ :=
  1 / 4 * uniformProb (Gui.available_moves b) x
    + 3 / 4 * uniformProb
        (if (Gui.weighted_pool b).isEmpty then Gui.available_moves b
         else Gui.weighted_pool b) x

/-- Distribution of the Medium fallback of consoletictactoe.py: the easy
mover, one uniform choice over legal moves (no noise step, no weights). -/
def Console.medium_fallback_prob (b : Board) (x : Nat) : ℚ :=
  uniformProb (availFrom b) x

/-- Modelled from the spec (section 4.3, Heuristic steps 3-4) and the
words of the claim: the pool is built from legal moves only, center (4) included
5 times, each legal corner (0, 2, 6, 8) 3 times, each legal edge
(1, 3, 5, 7) once. -/
def claimedPool (b : Board) : List Nat :=
  rep (if 4 ∈ availFrom b then [4] else []) 5
    ++ rep ([0, 2, 6, 8].filter (fun i => decide (i ∈ availFrom b))) 3
    ++ rep ([1, 3, 5, 7].filter (fun i => decide (i ∈ availFrom b))) 1

/-- Modelled from the spec/claim words: with probability 0.25 a uniformly
random legal move, otherwise a uniform draw from the weighted pool (with
the uniform-over-legal-moves fallback the spec prescribes when the pool is empty). -/
def claimed_fallback_prob (b : Board) (x : Nat) : ℚ :=
  1 / 4 * uniformProb (availFrom b) x
    + 3 / 4 * uniformProb
        (if (claimedPool b).isEmpty then availFrom b else claimedPool b) x

/-- C6 (amended): the claimed fallback behaviour (0.25 uniform noise, then
the 5/3/1 weighted pool over legal moves) is exactly that of the GUI tier
(pick_cpu_move): its pool has the claimed multiplicities, contains only
legal moves, is never empty on a 9-cell board with a legal move, and its
fallback draw is from that pool; the console Medium tier instead falls
back to the easy mover - a single uniform draw over legal moves with no
noise step and no weighting. -/
theorem c6_fallback_gui_weighted_console_uniform (b : Board) (x : Nat)
    (cpu hum : P) (rf : ℚ) (rc : Nat) :
    ((Gui.weighted_pool b).count x
      = (if x = 4 ∧ x ∈ availFrom b then 5 else 0)
        + (if (x = 0 ∨ x = 2 ∨ x = 6 ∨ x = 8) ∧ x ∈ availFrom b then 3 else 0)
        + (if (x = 1 ∨ x = 3 ∨ x = 5 ∨ x = 7) ∧ x ∈ availFrom b then 1 else 0))
    ∧ (∀ y ∈ Gui.weighted_pool b, y ∈ availFrom b)
    ∧ Gui.medium_fallback_prob b x = claimed_fallback_prob b x
    ∧ Console.medium_fallback_prob b x = uniformProb (availFrom b) x
    ∧ (b.length = 9 → availFrom b ≠ [] → Gui.weighted_pool b ≠ [])
    ∧ ((find_winning_moveT Console.check_winner b cpu).1 = none →
        (find_winning_moveT Console.check_winner b hum).1 = none →
        (Console.cpu_move b Diff.medium cpu hum rc).1 = Console.cpu_move_easy b rc)
    ∧ ((find_winning_moveT Gui.winner_of b cpu).1 = none →
        (find_winning_moveT Gui.winner_of b hum).1 = none →
        ¬(rf < 1 / 4) → (Gui.weighted_pool b).isEmpty = false →
        (Gui.pick_cpu_move b Diff.medium cpu hum rf rc).1
          = choice (Gui.weighted_pool b) rc) := by
  refine ⟨weighted_pool_count b x, weighted_pool_subset b, rfl, rfl, ?_, ?_, ?_⟩
  · intro hb hnil hpool
    obtain ⟨a, ha⟩ := List.exists_mem_of_ne_nil _ hnil
    have halt : a < 9 := by
      have h1 := get_lt_length b a none ((mem_avail b a).mp ha)
      omega
    have hcount : 0 < (Gui.weighted_pool b).count a := by
      rw [weighted_pool_count b a]
      have : a = 0 ∨ a = 1 ∨ a = 2 ∨ a = 3 ∨ a = 4 ∨ a = 5 ∨ a = 6 ∨ a = 7 ∨ a = 8 := by
        omega
      rcases this with rfl | rfl | rfl | rfl | rfl | rfl | rfl | rfl | rfl <;>
        simp [ha]
    have : a ∈ Gui.weighted_pool b := List.count_pos_iff.mp hcount
    rw [hpool] at this
    simp at this
  · intro h1 h2
    have hpair1 := fwm_pair Console.check_winner b cpu none h1
    have hpair2 := fwm_pair Console.check_winner b hum none h2
    simp [Console.cpu_move, hpair1, hpair2]
  · intro h1 h2 hrf hpool
    have hpair1 := fwm_pair Gui.winner_of b cpu none h1
    have hpair2 := fwm_pair Gui.winner_of b hum none h2
    rw [show (Gui.pick_cpu_move b Diff.medium cpu hum rf rc).1
        = (if rf < 1 / 4 then choice (Gui.available_moves b) rc
           else choice (if (Gui.weighted_pool b).isEmpty then Gui.available_moves b
             else Gui.weighted_pool b) rc) from by
      simp only [Gui.pick_cpu_move, hpair1, hpair2]
      split_ifs <;> rfl]
    rw [if_neg hrf, hpool]
    rfl

/-- Board [X,_,O, O,_,X, X,X,O]: no immediate win or block for either
side, legal moves 1 and 4, so both Medium tiers reach their fallback. -/
def mediumFallbackBoard : Board :=
  [some P.X, none, some P.O, some P.O, none, some P.X, some P.X, some P.X, some P.O]

/-- C6 (counterexample): at mediumFallbackBoard the fallback step is
reached (no win, no block for either mark), and the draw distribution of the console Medium tier differs from the claimed one: it returns cell 1 with
probability 1/2 (uniform over the two legal moves), while the claimed
0.25-noise / weighted-pool process returns cell 1 with probability 1/4. -/
theorem c6_counterexample_console_not_weighted :
    (find_winning_moveT Console.check_winner mediumFallbackBoard P.O).1 = none
    ∧ (find_winning_moveT Console.check_winner mediumFallbackBoard P.X).1 = none
    ∧ Console.medium_fallback_prob mediumFallbackBoard 1 = 1 / 2
    ∧ claimed_fallback_prob mediumFallbackBoard 1 = 1 / 4
    ∧ Console.medium_fallback_prob mediumFallbackBoard 1
        ≠ claimed_fallback_prob mediumFallbackBoard 1 := by
  have hav : availFrom mediumFallbackBoard = [1, 4] := by decide
  have hcp : claimedPool mediumFallbackBoard = [4, 4, 4, 4, 4, 1] := by decide
  have hcons : Console.medium_fallback_prob mediumFallbackBoard 1 = 1 / 2 := by
    show uniformProb (availFrom mediumFallbackBoard) 1 = 1 / 2
    rw [hav]
    norm_num [uniformProb]
  have hclaim : claimed_fallback_prob mediumFallbackBoard 1 = 1 / 4 := by
    show (1 : ℚ) / 4 * uniformProb (availFrom mediumFallbackBoard) 1
        + 3 / 4 * uniformProb
            (if (claimedPool mediumFallbackBoard).isEmpty
             then availFrom mediumFallbackBoard
             else claimedPool mediumFallbackBoard) 1 = 1 / 4
    rw [hcp, hav]
    norm_num [uniformProb]
  refine ⟨by decide, by decide, hcons, hclaim, ?_⟩
  rw [hcons, hclaim]
  norm_num

theorem c6_fallback_witness :
    (Console.cpu_move mediumFallbackBoard Diff.medium P.O P.X 0).1
      = Console.cpu_move_easy mediumFallbackBoard 0
    ∧ (Gui.pick_cpu_move mediumFallbackBoard Diff.medium P.O P.X 1 0).1
        = choice (Gui.weighted_pool mediumFallbackBoard) 0 := by
  have h := c6_fallback_gui_weighted_console_uniform mediumFallbackBoard 1 P.O P.X 1 0
  exact ⟨h.2.2.2.2.2.1 (by decide) (by decide),
    h.2.2.2.2.2.2 (by decide) (by decide) (by norm_num) (by decide)⟩

/-! ## The click handler of TicTacToeApp (tiktaktoe.py) -/

/-- The gameplay state held by TicTacToeApp: board, current_player,
game_over (widget state is presentation and not modelled). -/
structure AppState where
  board : Board
  current_player : P
  game_over : Bool
deriving DecidableEq

/-- The SessionOver error kind named by the spec (section 7).  The source
raises no exception anywhere in the click path, so no branch of the
embedded handler below ever produces it. -/
inductive SessionErr where
  | sessionOver
deriving DecidableEq

/-- _place_move: write the mark, flip current_player. -/
def place_move (s : AppState) (idx : Nat) (symbol : P) : AppState :=
  { board := s.board.set idx (some symbol)
    current_player := if symbol = P.X then P.O else P.X
    game_over := s.game_over }

/-- _check_end_and_handle: set game_over when winner_of reports a winner or
is_draw holds (the message boxes and widget updates are presentation). -/
def check_end_and_handle (s : AppState) : AppState :=
  match Gui.winner_of s.board with
  | some _ => { s with game_over := true }
  | none =>
    if Gui.is_draw s.board then { s with game_over := true } else s

/-- on_cell_clicked: if self.game_over: return; if the cell is occupied:
return; else place the mark and check for the end of the game.  Every path
returns normally (Except.ok); the deferred CPU reply (self.after) is
outside the state change of the handler itself. -/
def on_cell_clicked (s : AppState) (idx : Nat) : Except SessionErr AppState :=
  if s.game_over then Except.ok s
  else if (s.board.getD idx none).isSome then Except.ok s
  else Except.ok (check_end_and_handle (place_move s idx s.current_player))

/-- A finished session: X has won the top row and game_over is set. -/
def finishedState : AppState :=
  { board := [some P.X, some P.X, some P.X,
              some P.O, some P.O, none, none, none, none]
    current_player := P.O
    game_over := true }

/-- C5 (counterexample): the claim says a move attempt after the session is
terminal fails with a SessionOver error.  In the code the handler simply
returns: clicking cell 5 of a finished game returns normally (Except.ok)
with the state - board included - unchanged, and no error of any kind is
raised. -/
theorem c5_counterexample_click_after_end_returns_ok :
    finishedState.game_over = true
    ∧ on_cell_clicked finishedState 5 = Except.ok finishedState := by
  exact ⟨rfl, rfl⟩

/-- C5 (amended): once game_over is set, every further click is silently
ignored: the handler returns normally with the whole state (and so the
board) unchanged; no SessionOver error exists in the code. -/
theorem c5_terminal_click_ignored_state_unchanged (s : AppState) (idx : Nat)
    (h : s.game_over = true) :
    on_cell_clicked s idx = Except.ok s
    ∧ (∀ e : SessionErr, on_cell_clicked s idx ≠ Except.error e) := by
  unfold on_cell_clicked
  rw [if_pos h]
  exact ⟨rfl, fun e hcon => by exact absurd hcon (by simp)⟩

theorem c5_terminal_click_ignored_witness :
    finishedState.game_over = true
    ∧ on_cell_clicked finishedState 0 = Except.ok finishedState :=
  ⟨by decide, (c5_terminal_click_ignored_state_unchanged finishedState 0 (by decide)).1⟩
